import Mathlib

/-!
Verification of the matrix library (dense rational-valued matrices with
elementary row operations and in-place Gauss-Jordan reduction to RREF under
a fixed absolute tolerance EPS).

The embedding models the C++ class Matrix from lib/src/matrix.cpp as a
structure holding the row count, the column count and the flat row-major
backing storage.  IEEE doubles are idealized as exact rationals; every
comparison against the tolerance EPS is translated verbatim, so the
control flow of the algorithms is exactly that of the source.  Fallible
operations (constructors, checked element access, checked row operations,
the arithmetic operators) return Except values whose error kinds follow
the taxonomy of the specification.  Loops are modelled by structural
recursion on an explicit fuel argument together with proved stability
theorems showing the fuel bounds suffice, so every definition is
executable and concrete runs can be settled by kernel evaluation.
-/

unseal Rat.add Rat.mul Rat.inv Rat.sub

namespace Mtx

/-- Modelled from the spec: the tolerance constant EPS lives in the file
constants.hpp, which is not part of the sources; the specification fixes
the recommended and test-calibrated value EPS = 1e-9. -/
def EPS : ℚ := 1 / 1000000000

/-- Error taxonomy of section 7 of the specification, covering every throw
site of matrix.cpp that the claims mention. -/
inductive Err where
  | InvalidDimension
  | NonRectangular
  | IndexOutOfRange
  | RowOutOfRange
  | DimensionMismatch
deriving DecidableEq

/-- The Matrix class: row count, column count, and flat row-major storage
(fields rows_, cols_, data_ of matrix.hpp). -/
structure Matrix where
  rows : ℕ
  cols : ℕ
  data : List ℚ
deriving DecidableEq

deriving instance DecidableEq for Except

/-- Two matrices with equal fields are equal. -/
theorem Matrix.ext {m1 m2 : Matrix} (hr : m1.rows = m2.rows)
    (hc : m1.cols = m2.cols) (hd : m1.data = m2.data) : m1 = m2 := by
  cases m1; cases m2; simp_all

/-- Raw element read at row r, column c: data_[r * cols_ + c], with a
default of 0 outside the storage (all verified uses stay inside). -/
def Matrix.get (m : Matrix) (r c : ℕ) : ℚ := m.data.getD (r * m.cols + c) 0

/-- The shape invariant of a validly constructed matrix: positive
dimensions and storage length exactly rows * cols. -/
def Matrix.WF (m : Matrix) : Prop :=
  1 ≤ m.rows ∧ 1 ≤ m.cols ∧ m.data.length = m.rows * m.cols

instance (m : Matrix) : Decidable m.WF := by unfold Matrix.WF; infer_instance

/-- Constructor Matrix(rows, cols): zero-filled storage of rows * cols
entries; throws InvalidDimension when rows == 0 or cols == 0. -/
def mkDims (rows cols : ℕ) : Except Err Matrix :=
  if rows = 0 ∨ cols = 0 then .error .InvalidDimension
  else .ok ⟨rows, cols, List.replicate (rows * cols) 0⟩

/-- Constructor Matrix(values) from a nested sequence of rows: throws
InvalidDimension when the outer list or its first row is empty, throws
NonRectangular when some row length differs from the first row length,
and otherwise copies the rows into row-major storage. -/
def mkNested (values : List (List ℚ)) : Except Err Matrix :=
  if values.length = 0 ∨ (values.headD []).length = 0 then .error .InvalidDimension
  else if values.any fun rowVals => rowVals.length ≠ (values.headD []).length then
    .error .NonRectangular
  else .ok ⟨values.length, (values.headD []).length, values.flatten⟩

/-- Constructor Matrix(rows, cols, values) from a flat buffer: throws
InvalidDimension when rows == 0, cols == 0 or the buffer is empty, throws
NonRectangular when rows differs from the floor division of the buffer
length by cols, and otherwise copies the first rows * cols buffer entries. -/
def mkFlat (rows cols : ℕ) (values : List ℚ) : Except Err Matrix :=
  if rows = 0 ∨ cols = 0 ∨ values.length = 0 then .error .InvalidDimension
  else if rows ≠ values.length / cols then .error .NonRectangular
  else .ok ⟨rows, cols, values.take (rows * cols)⟩

/-- Element access operator()(rows, cols): throws IndexOutOfRange outside
the valid index rectangle, otherwise reads the stored entry. -/
def Matrix.getChecked (m : Matrix) (r c : ℕ) : Except Err ℚ :=
  if m.rows ≤ r ∨ m.cols ≤ c then .error .IndexOutOfRange
  else .ok (m.get r c)

/-- Equality operator==: false on any shape mismatch, otherwise true exactly
when every pair of corresponding entries differs by at most EPS. -/
def Matrix.beq (m1 m2 : Matrix) : Bool :=
  if m1.rows ≠ m2.rows ∨ m1.cols ≠ m2.cols then false
  else (List.range m1.data.length).all fun i =>
    !decide (EPS < |m1.data.getD i 0 - m2.data.getD i 0|)

/-- Addition operator+: throws DimensionMismatch on shape mismatch (and
InvalidDimension through the result constructor on empty shapes, which are
unreachable from valid matrices), otherwise adds elementwise into a fresh
matrix. -/
def Matrix.add (m other : Matrix) : Except Err Matrix :=
  if m.rows ≠ other.rows ∨ m.cols ≠ other.cols then .error .DimensionMismatch
  else if m.rows = 0 ∨ m.cols = 0 then .error .InvalidDimension
  else .ok ⟨m.rows, m.cols,
    (List.range m.data.length).map fun i => m.data.getD i 0 + other.data.getD i 0⟩

/-- Subtraction operator-: same contract as addition, subtracting
elementwise. -/
def Matrix.sub (m other : Matrix) : Except Err Matrix :=
  if m.rows ≠ other.rows ∨ m.cols ≠ other.cols then .error .DimensionMismatch
  else if m.rows = 0 ∨ m.cols = 0 then .error .InvalidDimension
  else .ok ⟨m.rows, m.cols,
    (List.range m.data.length).map fun i => m.data.getD i 0 - other.data.getD i 0⟩

/-- Scalar multiplication operator*(m, f): scales every entry by f into a
fresh matrix (the only throw site is the result constructor on empty
shapes, unreachable from valid matrices). -/
def mulMatScalar (m : Matrix) (f : ℚ) : Except Err Matrix :=
  if m.rows = 0 ∨ m.cols = 0 then .error .InvalidDimension
  else .ok ⟨m.rows, m.cols, (List.range m.data.length).map fun i => m.data.getD i 0 * f⟩

/-- Scalar multiplication operator*(f, m): defined as m * f. -/
def mulScalarMat (f : ℚ) (m : Matrix) : Except Err Matrix := mulMatScalar m f

/-- Row swap swap_rows(r1, r2): exchanges the storage bands of the two rows
(std::swap_ranges on the flat buffer). -/
def Matrix.swap_rows (m : Matrix) (r1 r2 : ℕ) : Matrix :=
  { m with data := List.ofFn fun i : Fin m.data.length =>
      if r1 * m.cols ≤ i.val ∧ i.val < r1 * m.cols + m.cols then
        m.data.getD (r2 * m.cols + (i.val - r1 * m.cols)) 0
      else if r2 * m.cols ≤ i.val ∧ i.val < r2 * m.cols + m.cols then
        m.data.getD (r1 * m.cols + (i.val - r2 * m.cols)) 0
      else m.data.getD i.val 0 }

/-- Checked row swap: throws RowOutOfRange when either row index is not
below rows_. -/
def Matrix.swap_rowsChecked (m : Matrix) (r1 r2 : ℕ) : Except Err Matrix :=
  if m.rows ≤ r1 ∨ m.rows ≤ r2 then .error .RowOutOfRange
  else .ok (m.swap_rows r1 r2)

/-- Row scaling scale_row(r, scalar): multiplies every entry of the storage
band of row r by the scalar. -/
def Matrix.scale_row (m : Matrix) (r : ℕ) (scalar : ℚ) : Matrix :=
  { m with data := List.ofFn fun i : Fin m.data.length =>
      if r * m.cols ≤ i.val ∧ i.val < r * m.cols + m.cols then
        m.data.getD i.val 0 * scalar
      else m.data.getD i.val 0 }

/-- Checked row scaling: throws RowOutOfRange when r is not below rows_. -/
def Matrix.scale_rowChecked (m : Matrix) (r : ℕ) (scalar : ℚ) : Except Err Matrix :=
  if m.rows ≤ r then .error .RowOutOfRange else .ok (m.scale_row r scalar)

/-- Row combination add_row_multiple(src, dst, scalar): adds scalar times
the src row into the dst row, entry by entry. -/
def Matrix.add_row_multiple (m : Matrix) (src dst : ℕ) (scalar : ℚ) : Matrix :=
  { m with data := List.ofFn fun i : Fin m.data.length =>
      if dst * m.cols ≤ i.val ∧ i.val < dst * m.cols + m.cols then
        m.data.getD i.val 0 + scalar * m.data.getD (src * m.cols + (i.val - dst * m.cols)) 0
      else m.data.getD i.val 0 }

/-- Checked row combination: throws RowOutOfRange when either index is not
below rows_. -/
def Matrix.add_row_multipleChecked (m : Matrix) (src dst : ℕ) (scalar : ℚ) :
    Except Err Matrix :=
  if m.rows ≤ src then .error .RowOutOfRange
  else if m.rows ≤ dst then .error .RowOutOfRange
  else .ok (m.add_row_multiple src dst scalar)

/-- The pivot search of rref(): the while loop scans i = row, row+1, ...
and stops at the first row whose entry in column lead does not satisfy
abs(value) < EPS; reaching i == rows means no pivot. -/
def findPivot (m : Matrix) (row lead : ℕ) : Option ℕ :=
  (List.range' row (m.rows - row)).find? fun i => !decide (|m.get i lead| < EPS)

/-- Modelled from the spec: the pivot search as the specification words it,
scanning rows i = row .. rows-1 for the first row whose value at column
lead has absolute value strictly greater than EPS.  Kept separate from
findPivot (the translation of the code) so the two can be compared. -/
def pivotSearchSpec (m : Matrix) (row lead : ℕ) : Option ℕ :=
  (List.range' row (m.rows - row)).find? fun i => decide (EPS < |m.get i lead|)

/-- One step of the elimination loop of rref(): for candidate row j, when
j differs from the pivot row and the entry at (j, lead) exceeds EPS in
absolute value, subtract that entry times the pivot row from row j. -/
def elimRow (row lead : ℕ) (m : Matrix) (j : ℕ) : Matrix :=
  if j ≠ row ∧ EPS < |m.get j lead| then
    m.add_row_multiple row j (-(m.get j lead))
  else m

/-- The full elimination loop of rref(): fold elimRow over j = 0 .. rows-1. -/
def elimAll (m : Matrix) (row lead : ℕ) : Matrix :=
  (List.range m.rows).foldl (elimRow row lead) m

/-- The normalization step of rref(): read the pivot at (row, lead) and,
when its absolute value exceeds EPS, scale the pivot row by its
reciprocal. -/
def scaleStep (m1 : Matrix) (row lead : ℕ) : Matrix :=
  if EPS < |m1.get row lead| then m1.scale_row row (1 / m1.get row lead) else m1

/-- The main loop of rref(), with an explicit fuel bounding the number of
iterations.  Each iteration either returns (row == rows via the for
condition, or lead == cols via the early return), skips a pivotless column
(lead+1, same row: the row-- / ++row idiom), or consumes a pivot row:
swap the found row up, normalize it when the pivot exceeds EPS, eliminate
the lead column from every other row, and advance both counters. -/
def rrefAux : ℕ → Matrix → ℕ → ℕ → Matrix
  | 0, m, _, _ => m
  | fuel + 1, m, row, lead =>
    if row < m.rows then
      if lead < m.cols then
        match findPivot m row lead with
        | none => rrefAux fuel m row (lead + 1)
        | some i =>
          rrefAux fuel (elimAll (scaleStep (m.swap_rows i row) row lead) row lead)
            (row + 1) (lead + 1)
      else m
    else m

/-- rref(): run the main loop from row 0, lead 0.  The fuel rows + cols is
sufficient: each iteration advances lead, or advances row and lead
together (theorem rrefAux_fuel_irrelevant below). -/
def Matrix.rref (m : Matrix) : Matrix := rrefAux (m.rows + m.cols) m 0 0

/-- The pivot search with every element access going through the checked
accessor, as executed by rref(): the scan index i is bounded by rows via
the short-circuit loop condition. -/
def findPivotChecked (m : Matrix) (lead : ℕ) : ℕ → ℕ → Except Err (Option ℕ)
  | 0, _ => .ok none
  | fuel + 1, i =>
    if i < m.rows then do
      let v ← m.getChecked i lead
      if |v| < EPS then findPivotChecked m lead fuel (i + 1) else .ok (some i)
    else .ok none

/-- One step of the elimination loop with checked element access and
checked row combination. -/
def elimRowChecked (row lead : ℕ) (m : Matrix) (j : ℕ) : Except Err Matrix :=
  if j ≠ row then do
    let factor ← m.getChecked j lead
    if EPS < |factor| then m.add_row_multipleChecked row j (-factor) else .ok m
  else .ok m

/-- The elimination loop with checked primitives. -/
def elimAllChecked (m : Matrix) (row lead : ℕ) : Except Err Matrix :=
  (List.range m.rows).foldlM (elimRowChecked row lead) m

/-- The main loop of rref() with every element access, row swap, row
scaling and row combination replaced by its checked variant, so that any
out-of-range index would surface as an error value. -/
def rrefCheckedAux : ℕ → Matrix → ℕ → ℕ → Except Err Matrix
  | 0, m, _, _ => .ok m
  | fuel + 1, m, row, lead =>
    if row < m.rows then
      if lead < m.cols then do
        match ← findPivotChecked m lead (m.rows - row) row with
        | none => rrefCheckedAux fuel m row (lead + 1)
        | some i => do
          let m1 ← m.swap_rowsChecked i row
          let pivot ← m1.getChecked row lead
          let m2 ← if EPS < |pivot| then m1.scale_rowChecked row (1 / pivot) else .ok m1
          let m3 ← elimAllChecked m2 row lead
          rrefCheckedAux fuel m3 (row + 1) (lead + 1)
      else .ok m
    else .ok m

/-- rref() over the checked primitives. -/
def Matrix.rrefChecked (m : Matrix) : Except Err Matrix :=
  rrefCheckedAux (m.rows + m.cols) m 0 0

/-- A value is unambiguous for the tolerance tests when it is exactly zero
or clears the tolerance strictly: for such values the three EPS
comparisons of rref() agree with exact zero tests. -/
def goodVal (v : ℚ) : Bool := decide (v = 0) || decide (EPS < |v|)

/-- Tolerance cleanliness of a run of the main loop: along the exact
execution path of rrefAux, every value the algorithm compares against EPS
(the scanned column segment of the pivot search and the elimination
factors read after normalization) is unambiguous in the sense of goodVal. -/
def cleanAux : ℕ → Matrix → ℕ → ℕ → Bool
  | 0, _, _, _ => true
  | fuel + 1, m, row, lead =>
    if row < m.rows then
      if lead < m.cols then
        ((List.range' row (m.rows - row)).all fun i => goodVal (m.get i lead)) &&
        match findPivot m row lead with
        | none => cleanAux fuel m row (lead + 1)
        | some i =>
          ((List.range m.rows).all fun j =>
            decide (j = row) || goodVal ((scaleStep (m.swap_rows i row) row lead).get j lead)) &&
          cleanAux fuel (elimAll (scaleStep (m.swap_rows i row) row lead) row lead)
            (row + 1) (lead + 1)
      else true
    else true

/-- Cleanliness of the rref() run from the initial state. -/
def Matrix.cleanRun (m : Matrix) : Bool := cleanAux (m.rows + m.cols) m 0 0

/-- The pivot-column search of the structural RREF checker isRREF of the
test suite: the first column of row r whose entry exceeds EPS in absolute
value, none for a row that is all within tolerance of zero. -/
def rowPivot (m : Matrix) (r : ℕ) : Option ℕ :=
  (List.range m.cols).find? fun c => decide (EPS < |m.get r c|)

/-- The row loop of the structural RREF checker isRREF of the test suite,
carrying the column of the previous leading one (-1 initially) and the
flag recording whether an all-zero row has been seen, with fuel bounding
the remaining iterations. -/
def isRREFAux (m : Matrix) : ℕ → ℤ → Bool → ℕ → Bool
  | 0, _, _, _ => true
  | fuel + 1, last, foundZero, r =>
    if r < m.rows then
      match rowPivot m r with
      | none => isRREFAux m fuel last true (r + 1)
      | some pc =>
        if foundZero then false
        else if EPS < |m.get r pc - 1| then false
        else if (pc : ℤ) ≤ last then false
        else if !((List.range m.rows).all fun rr =>
            decide (rr = r) || !decide (EPS < |m.get rr pc|)) then false
        else isRREFAux m fuel (pc : ℤ) foundZero (r + 1)
    else true

/-- The structural RREF checker isRREF of the test suite: every row that is
not within tolerance of zero has its first above-tolerance entry within
EPS of 1, those leading columns strictly increase down the matrix, every
other entry of a leading column is within tolerance of zero, and all-zero
rows sit in a contiguous block at the bottom. -/
def isRREF (m : Matrix) : Bool := isRREFAux m m.rows (-1) false 0

/-- The elimination bookkeeping carried by the main loop: pv names the
pivot column of every finished row.  Finished rows (below row) have a one
in their pivot column, zeros before it, and their pivot column is zero in
every other row; pivot columns strictly increase and all lie before lead;
and every unfinished row is zero in every column before lead. -/
structure Inv (m : Matrix) (row lead : ℕ) (pv : ℕ → ℕ) : Prop where
  mono : ∀ r, r + 1 < row → pv r < pv (r + 1)
  lt_lead : ∀ r, r < row → pv r < lead
  pivot_one : ∀ r, r < row → m.get r (pv r) = 1
  pivot_col : ∀ r, r < row → ∀ j, j < m.rows → j ≠ r → m.get j (pv r) = 0
  preZero : ∀ r, r < row → ∀ c, c < pv r → m.get r c = 0
  block : ∀ r, row ≤ r → r < m.rows → ∀ c, c < lead → m.get r c = 0

theorem EPS_pos : (0 : ℚ) < EPS := by norm_num [EPS]

theorem EPS_lt_one : EPS < 1 := by norm_num [EPS]

@[simp] theorem rows_swap_rows (m : Matrix) (r1 r2 : ℕ) :
    (m.swap_rows r1 r2).rows = m.rows := rfl

@[simp] theorem cols_swap_rows (m : Matrix) (r1 r2 : ℕ) :
    (m.swap_rows r1 r2).cols = m.cols := rfl

@[simp] theorem length_swap_rows (m : Matrix) (r1 r2 : ℕ) :
    (m.swap_rows r1 r2).data.length = m.data.length := by
  simp [Matrix.swap_rows]

@[simp] theorem rows_scale_row (m : Matrix) (r : ℕ) (k : ℚ) :
    (m.scale_row r k).rows = m.rows := rfl

@[simp] theorem cols_scale_row (m : Matrix) (r : ℕ) (k : ℚ) :
    (m.scale_row r k).cols = m.cols := rfl

@[simp] theorem length_scale_row (m : Matrix) (r : ℕ) (k : ℚ) :
    (m.scale_row r k).data.length = m.data.length := by
  simp [Matrix.scale_row]

@[simp] theorem rows_add_row_multiple (m : Matrix) (src dst : ℕ) (k : ℚ) :
    (m.add_row_multiple src dst k).rows = m.rows := rfl

@[simp] theorem cols_add_row_multiple (m : Matrix) (src dst : ℕ) (k : ℚ) :
    (m.add_row_multiple src dst k).cols = m.cols := rfl

@[simp] theorem length_add_row_multiple (m : Matrix) (src dst : ℕ) (k : ℚ) :
    (m.add_row_multiple src dst k).data.length = m.data.length := by
  simp [Matrix.add_row_multiple]

@[simp] theorem rows_elimRow (row lead : ℕ) (m : Matrix) (j : ℕ) :
    (elimRow row lead m j).rows = m.rows := by
  unfold elimRow; split <;> rfl

@[simp] theorem cols_elimRow (row lead : ℕ) (m : Matrix) (j : ℕ) :
    (elimRow row lead m j).cols = m.cols := by
  unfold elimRow; split <;> rfl

@[simp] theorem length_elimRow (row lead : ℕ) (m : Matrix) (j : ℕ) :
    (elimRow row lead m j).data.length = m.data.length := by
  unfold elimRow; split <;> simp

theorem foldl_elimRow_rows (row lead : ℕ) (L : List ℕ) :
    ∀ m : Matrix, (L.foldl (elimRow row lead) m).rows = m.rows := by
  induction L with
  | nil => intro m; rfl
  | cons j L ih => intro m; rw [List.foldl_cons, ih, rows_elimRow]

theorem foldl_elimRow_cols (row lead : ℕ) (L : List ℕ) :
    ∀ m : Matrix, (L.foldl (elimRow row lead) m).cols = m.cols := by
  induction L with
  | nil => intro m; rfl
  | cons j L ih => intro m; rw [List.foldl_cons, ih, cols_elimRow]

theorem foldl_elimRow_length (row lead : ℕ) (L : List ℕ) :
    ∀ m : Matrix, (L.foldl (elimRow row lead) m).data.length = m.data.length := by
  induction L with
  | nil => intro m; rfl
  | cons j L ih => intro m; rw [List.foldl_cons, ih, length_elimRow]

@[simp] theorem rows_elimAll (m : Matrix) (row lead : ℕ) :
    (elimAll m row lead).rows = m.rows := foldl_elimRow_rows row lead _ m

@[simp] theorem cols_elimAll (m : Matrix) (row lead : ℕ) :
    (elimAll m row lead).cols = m.cols := foldl_elimRow_cols row lead _ m

@[simp] theorem length_elimAll (m : Matrix) (row lead : ℕ) :
    (elimAll m row lead).data.length = m.data.length := foldl_elimRow_length row lead _ m

@[simp] theorem rows_scaleStep (m1 : Matrix) (row lead : ℕ) :
    (scaleStep m1 row lead).rows = m1.rows := by
  unfold scaleStep; split <;> rfl

@[simp] theorem cols_scaleStep (m1 : Matrix) (row lead : ℕ) :
    (scaleStep m1 row lead).cols = m1.cols := by
  unfold scaleStep; split <;> rfl

@[simp] theorem length_scaleStep (m1 : Matrix) (row lead : ℕ) :
    (scaleStep m1 row lead).data.length = m1.data.length := by
  unfold scaleStep; split <;> simp

@[simp] theorem rows_rrefAux (fuel : ℕ) :
    ∀ (m : Matrix) (row lead : ℕ), (rrefAux fuel m row lead).rows = m.rows := by
  induction fuel with
  | zero => intro m row lead; rfl
  | succ fuel ih =>
    intro m row lead
    unfold rrefAux
    by_cases h1 : row < m.rows
    · by_cases h2 : lead < m.cols
      · simp only [if_pos h1, if_pos h2]
        cases hfp : findPivot m row lead with
        | none => rw [ih]
        | some i => rw [ih]; simp
      · simp [if_pos h1, if_neg h2]
    · simp [if_neg h1]

@[simp] theorem cols_rrefAux (fuel : ℕ) :
    ∀ (m : Matrix) (row lead : ℕ), (rrefAux fuel m row lead).cols = m.cols := by
  induction fuel with
  | zero => intro m row lead; rfl
  | succ fuel ih =>
    intro m row lead
    unfold rrefAux
    by_cases h1 : row < m.rows
    · by_cases h2 : lead < m.cols
      · simp only [if_pos h1, if_pos h2]
        cases hfp : findPivot m row lead with
        | none => rw [ih]
        | some i => rw [ih]; simp
      · simp [if_pos h1, if_neg h2]
    · simp [if_neg h1]

@[simp] theorem length_rrefAux (fuel : ℕ) :
    ∀ (m : Matrix) (row lead : ℕ), (rrefAux fuel m row lead).data.length = m.data.length := by
  induction fuel with
  | zero => intro m row lead; rfl
  | succ fuel ih =>
    intro m row lead
    unfold rrefAux
    by_cases h1 : row < m.rows
    · by_cases h2 : lead < m.cols
      · simp only [if_pos h1, if_pos h2]
        cases hfp : findPivot m row lead with
        | none => rw [ih]
        | some i => rw [ih]; simp
      · simp [if_pos h1, if_neg h2]
    · simp [if_neg h1]

theorem idx_lt {m : Matrix} (hwf : m.WF) {r c : ℕ} (hr : r < m.rows) (hc : c < m.cols) :
    r * m.cols + c < m.data.length := by
  rcases hwf with ⟨-, -, hlen⟩
  rw [hlen]
  calc r * m.cols + c < r * m.cols + m.cols := Nat.add_lt_add_left hc _
    _ = (r + 1) * m.cols := by ring
    _ ≤ m.rows * m.cols := Nat.mul_le_mul_right _ hr

theorem band_iff {cols a r c : ℕ} (hc : c < cols) :
    (a * cols ≤ r * cols + c ∧ r * cols + c < a * cols + cols) ↔ r = a := by
  constructor
  · rintro ⟨h1, h2⟩
    rcases Nat.lt_trichotomy r a with h | h | h
    · exfalso
      have h3 : (r + 1) * cols ≤ a * cols := Nat.mul_le_mul_right _ h
      rw [add_mul, one_mul] at h3
      linarith
    · exact h
    · exfalso
      have h3 : (a + 1) * cols ≤ r * cols := Nat.mul_le_mul_right _ h
      rw [add_mul, one_mul] at h3
      linarith
  · rintro rfl
    exact ⟨Nat.le_add_right _ _, Nat.add_lt_add_left hc _⟩

theorem get_swap_rows {m : Matrix} (hwf : m.WF) {r1 r2 r c : ℕ}
    (hr : r < m.rows) (hc : c < m.cols) :
    (m.swap_rows r1 r2).get r c =
      if r = r1 then m.get r2 c else if r = r2 then m.get r1 c else m.get r c := by
  have hidx : r * m.cols + c < m.data.length := idx_lt hwf hr hc
  simp only [Matrix.get, Matrix.swap_rows]
  rw [List.getD_eq_getElem _ _ (by simpa using hidx), List.getElem_ofFn]
  by_cases e1 : r = r1
  · subst e1
    rw [if_pos ((band_iff hc).mpr rfl), if_pos rfl, Nat.add_sub_cancel_left]
  · rw [if_neg fun hb => e1 ((band_iff hc).mp hb), if_neg e1]
    by_cases e2 : r = r2
    · subst e2
      rw [if_pos ((band_iff hc).mpr rfl), if_pos rfl, Nat.add_sub_cancel_left]
    · rw [if_neg fun hb => e2 ((band_iff hc).mp hb), if_neg e2]

theorem get_scale_row {m : Matrix} (hwf : m.WF) {r' r c : ℕ} (k : ℚ)
    (hr : r < m.rows) (hc : c < m.cols) :
    (m.scale_row r' k).get r c = if r = r' then m.get r c * k else m.get r c := by
  have hidx : r * m.cols + c < m.data.length := idx_lt hwf hr hc
  simp only [Matrix.get, Matrix.scale_row]
  rw [List.getD_eq_getElem _ _ (by simpa using hidx), List.getElem_ofFn]
  by_cases e1 : r = r'
  · subst e1
    rw [if_pos ((band_iff hc).mpr rfl), if_pos rfl]
  · rw [if_neg fun hb => e1 ((band_iff hc).mp hb), if_neg e1]

theorem get_add_row_multiple {m : Matrix} (hwf : m.WF) {src dst r c : ℕ} (k : ℚ)
    (hr : r < m.rows) (hc : c < m.cols) :
    (m.add_row_multiple src dst k).get r c =
      if r = dst then m.get r c + k * m.get src c else m.get r c := by
  have hidx : r * m.cols + c < m.data.length := idx_lt hwf hr hc
  simp only [Matrix.get, Matrix.add_row_multiple]
  rw [List.getD_eq_getElem _ _ (by simpa using hidx), List.getElem_ofFn]
  by_cases e1 : r = dst
  · subst e1
    rw [if_pos ((band_iff hc).mpr rfl), if_pos rfl, Nat.add_sub_cancel_left]
  · rw [if_neg fun hb => e1 ((band_iff hc).mp hb), if_neg e1]

theorem find?_range'_none {p : ℕ → Bool} {s n : ℕ}
    (h : ∀ k, s ≤ k → k < s + n → p k = false) :
    (List.range' s n).find? p = none := by
  rw [List.find?_eq_none]
  intro x hx
  have hm := List.mem_range'_1.mp hx
  simp [h x hm.1 hm.2]

theorem find?_range'_some {p : ℕ → Bool} {s n j : ℕ} (hj : s ≤ j) (hjn : j < s + n)
    (hpj : p j = true) (hbefore : ∀ k, s ≤ k → k < j → p k = false) :
    (List.range' s n).find? p = some j := by
  induction n generalizing s with
  | zero => omega
  | succ n ih =>
    rw [List.range'_succ]
    rcases eq_or_lt_of_le hj with heq | hlt
    · subst heq
      simp [List.find?_cons, hpj]
    · have hps : p s = false := hbefore s le_rfl hlt
      simp only [List.find?_cons, hps]
      exact ih (by omega) (by omega) fun k hk1 hk2 => hbefore k (by omega) hk2

theorem rrefAux_exit_row (fuel : ℕ) (m : Matrix) (row lead : ℕ) (h : m.rows ≤ row) :
    rrefAux fuel m row lead = m := by
  cases fuel with
  | zero => rfl
  | succ fuel =>
    unfold rrefAux
    rw [if_neg (not_lt.mpr h)]

theorem rrefAux_exit_lead (fuel : ℕ) (m : Matrix) (row lead : ℕ) (h : m.cols ≤ lead) :
    rrefAux fuel m row lead = m := by
  cases fuel with
  | zero => rfl
  | succ fuel =>
    unfold rrefAux
    by_cases h1 : row < m.rows
    · rw [if_pos h1, if_neg (not_lt.mpr h)]
    · rw [if_neg h1]

theorem rrefAux_fuel_irrelevant :
    ∀ fuel1 fuel2 (m : Matrix) (row lead : ℕ),
      (m.rows - row) + (m.cols - lead) ≤ fuel1 →
      (m.rows - row) + (m.cols - lead) ≤ fuel2 →
      rrefAux fuel1 m row lead = rrefAux fuel2 m row lead := by
  intro fuel1
  induction fuel1 with
  | zero =>
    intro fuel2 m row lead h1 h2
    have hr : m.rows ≤ row := by omega
    rw [rrefAux_exit_row 0 m row lead hr, rrefAux_exit_row fuel2 m row lead hr]
  | succ fuel1 ih =>
    intro fuel2 m row lead h1 h2
    by_cases hrow : row < m.rows
    · by_cases hlead : lead < m.cols
      · cases fuel2 with
        | zero => omega
        | succ fuel2 =>
          unfold rrefAux
          simp only [if_pos hrow, if_pos hlead]
          cases hfp : findPivot m row lead with
          | none => exact ih fuel2 m row (lead + 1) (by omega) (by omega)
          | some i =>
            apply ih
            · simp only [rows_elimAll, cols_elimAll, rows_scaleStep, cols_scaleStep,
                rows_swap_rows, cols_swap_rows]
              omega
            · simp only [rows_elimAll, cols_elimAll, rows_scaleStep, cols_scaleStep,
                rows_swap_rows, cols_swap_rows]
              omega
      · rw [rrefAux_exit_lead _ _ _ _ (not_lt.mp hlead),
          rrefAux_exit_lead _ _ _ _ (not_lt.mp hlead)]
    · rw [rrefAux_exit_row _ _ _ _ (not_lt.mp hrow),
        rrefAux_exit_row _ _ _ _ (not_lt.mp hrow)]

/-- C3: the main loop of rref() terminates within rows row-advancements
plus cols column-advancements: every fuel bound of at least rows + cols
gives the same result as the rows + cols bound used by rref(), because
each iteration either advances lead by one (no-pivot branch, same row via
the unsigned row decrement idiom) or advances row and lead together, and
the loop exits as soon as row reaches rows or lead reaches cols. -/
theorem c3_rref_terminates (m : Matrix) (fuel : ℕ) (h : m.rows + m.cols ≤ fuel) :
    rrefAux fuel m 0 0 = m.rref := by
  unfold Matrix.rref
  exact rrefAux_fuel_irrelevant fuel (m.rows + m.cols) m 0 0 (by omega) (by omega)

/-- Witness for C3 at a concrete 2 by 2 matrix and surplus fuel. -/
theorem c3_rref_terminates_witness :
    rrefAux 50 ⟨2, 2, [2, 4, 1, 3]⟩ 0 0 = (⟨2, 2, [2, 4, 1, 3]⟩ : Matrix).rref :=
  c3_rref_terminates ⟨2, 2, [2, 4, 1, 3]⟩ 50 (by decide)

/-- C5 counterexample: on the 1 by 1 matrix holding exactly EPS, the pivot
search of the code accepts row 0 (its test is abs < EPS, a non-strict
threshold at EPS), while the search described by the claim (strictly
greater than EPS) rejects every row. -/
theorem c5_counterexample :
    findPivot ⟨1, 1, [EPS]⟩ 0 0 = some 0 ∧
      pivotSearchSpec ⟨1, 1, [EPS]⟩ 0 0 = none := by
  decide

/-- C5 (amended): the pivot search selects the first (topmost) row i in
row .. rows-1 whose entry at column lead has absolute value at least EPS
(not strictly greater, as claimed); when no row qualifies, lead advances
by one and the same row value is retried without consuming a pivot row. -/
theorem c5_pivot_search (m : Matrix) (row lead : ℕ) :
    (findPivot m row lead =
      (List.range' row (m.rows - row)).find? fun i => decide (EPS ≤ |m.get i lead|)) ∧
    (∀ fuel, row < m.rows → lead < m.cols → findPivot m row lead = none →
      rrefAux (fuel + 1) m row lead = rrefAux fuel m row (lead + 1)) := by
  constructor
  · unfold findPivot
    congr 1
    funext i
    rw [← decide_not]
    exact decide_eq_decide.mpr not_lt
  · intro fuel h1 h2 hnone
    conv_lhs => rw [rrefAux]
    simp only [if_pos h1, if_pos h2, hnone]

/-- Witness for C5: the no-pivot branch taken on a concrete matrix whose
first column is entirely zero. -/
theorem c5_pivot_search_witness :
    rrefAux 5 ⟨2, 2, [0, 1, 0, 2]⟩ 0 0 = rrefAux 4 ⟨2, 2, [0, 1, 0, 2]⟩ 0 1 :=
  (c5_pivot_search ⟨2, 2, [0, 1, 0, 2]⟩ 0 0).2 4 (by decide) (by decide) (by decide)

theorem getD_range_map (f : ℕ → ℚ) {n i : ℕ} (h : i < n) :
    ((List.range n).map f).getD i 0 = f i := by
  rw [List.getD_eq_getElem _ _ (by simp [h]), List.getElem_map, List.getElem_range]

theorem sum_map_length_eq {C : ℕ} :
    ∀ L : List (List ℚ), (∀ l ∈ L, l.length = C) → (L.map List.length).sum = L.length * C := by
  intro L
  induction L with
  | nil => simp
  | cons a L ih =>
    intro h
    simp only [List.map_cons, List.sum_cons, List.length_cons]
    rw [h a (by simp), ih fun l hl => h l (by simp [hl])]
    ring

theorem beq_of_entries {m1 m2 : Matrix} (hr : m1.rows = m2.rows) (hc : m1.cols = m2.cols)
    (h : ∀ i, i < m1.data.length → |m1.data.getD i 0 - m2.data.getD i 0| ≤ EPS) :
    m1.beq m2 = true := by
  unfold Matrix.beq
  rw [if_neg (by push_neg; exact ⟨hr, hc⟩), List.all_eq_true]
  intro i hi
  rw [Bool.not_eq_true', decide_eq_false_iff_not]
  exact not_lt.mpr (h i (List.mem_range.mp hi))

/-- C4: every successful construction yields a matrix satisfying the shape
invariant (storage length rows times cols, both dimensions at least one),
the three row primitives never change rows, cols or the storage length,
and rref() preserves rows, cols, the storage length, and hence the whole
invariant. -/
theorem c4_shape_invariant :
    (∀ rows cols m, mkDims rows cols = .ok m → m.WF) ∧
    (∀ values m, mkNested values = .ok m → m.WF) ∧
    (∀ rows cols values m, mkFlat rows cols values = .ok m → m.WF) ∧
    (∀ (m : Matrix) (r1 r2 : ℕ), (m.swap_rows r1 r2).rows = m.rows ∧
      (m.swap_rows r1 r2).cols = m.cols ∧ (m.swap_rows r1 r2).data.length = m.data.length) ∧
    (∀ (m : Matrix) (r : ℕ) (k : ℚ), (m.scale_row r k).rows = m.rows ∧
      (m.scale_row r k).cols = m.cols ∧ (m.scale_row r k).data.length = m.data.length) ∧
    (∀ (m : Matrix) (src dst : ℕ) (k : ℚ), (m.add_row_multiple src dst k).rows = m.rows ∧
      (m.add_row_multiple src dst k).cols = m.cols ∧
      (m.add_row_multiple src dst k).data.length = m.data.length) ∧
    (∀ m : Matrix, m.rref.rows = m.rows ∧ m.rref.cols = m.cols ∧
      m.rref.data.length = m.data.length) ∧
    (∀ m : Matrix, m.WF → m.rref.WF) := by
  refine ⟨?_, ?_, ?_, ?_, ?_, ?_, ?_, ?_⟩
  · intro rows cols m h
    unfold mkDims at h
    split at h
    · simp at h
    · rename_i hd
      simp only [Except.ok.injEq] at h
      subst h
      refine ⟨?_, ?_, ?_⟩
      · show 1 ≤ rows
        omega
      · show 1 ≤ cols
        omega
      · simp
  · intro values m h
    unfold mkNested at h
    split at h
    · simp at h
    · rename_i hd
      split at h
      · simp at h
      · rename_i hany
        simp only [Except.ok.injEq] at h
        subst h
        have hall : ∀ l ∈ values, l.length = (values.headD []).length := by
          intro l hl
          by_contra hne
          exact hany (List.any_eq_true.mpr ⟨l, hl, by simpa using hne⟩)
        refine ⟨?_, ?_, ?_⟩
        · show 1 ≤ values.length
          omega
        · show 1 ≤ (values.headD []).length
          omega
        · show values.flatten.length = values.length * (values.headD []).length
          rw [List.length_flatten, sum_map_length_eq values hall]
  · intro rows cols values m h
    unfold mkFlat at h
    split at h
    · simp at h
    · rename_i hd
      split at h
      · simp at h
      · rename_i hne
        push_neg at hne
        simp only [Except.ok.injEq] at h
        subst h
        have hle : rows * cols ≤ values.length := by
          rw [hne]
          exact Nat.div_mul_le_self _ _
        refine ⟨?_, ?_, ?_⟩
        · show 1 ≤ rows
          omega
        · show 1 ≤ cols
          omega
        · show (values.take (rows * cols)).length = rows * cols
          rw [List.length_take, Nat.min_eq_left hle]
  · intro m r1 r2
    exact ⟨rfl, rfl, by simp⟩
  · intro m r k
    exact ⟨rfl, rfl, by simp⟩
  · intro m src dst k
    exact ⟨rfl, rfl, by simp⟩
  · intro m
    exact ⟨by simp [Matrix.rref], by simp [Matrix.rref], by simp [Matrix.rref]⟩
  · intro m hwf
    obtain ⟨h1, h2, h3⟩ := hwf
    exact ⟨by simpa [Matrix.rref] using h1, by simpa [Matrix.rref] using h2,
      by simp [Matrix.rref, h3]⟩

/-- Witness for C4: the flat constructor on a concrete buffer produces a
matrix satisfying the shape invariant. -/
theorem c4_shape_invariant_witness : Matrix.WF ⟨2, 2, [1, 2, 3, 4]⟩ :=
  c4_shape_invariant.2.2.1 2 2 [1, 2, 3, 4] ⟨2, 2, [1, 2, 3, 4]⟩ (by decide)

/-- C6: equality is true exactly on equal-shaped matrices all of whose
corresponding entries differ by at most EPS, and false on any shape
mismatch regardless of the stored values. -/
theorem c6_equality (m1 m2 : Matrix) (h1 : m1.WF) (h2 : m2.WF) :
    (m1.beq m2 = true ↔
      m1.rows = m2.rows ∧ m1.cols = m2.cols ∧
        ∀ r, r < m1.rows → ∀ c, c < m1.cols → |m1.get r c - m2.get r c| ≤ EPS) ∧
    (m1.rows ≠ m2.rows ∨ m1.cols ≠ m2.cols → m1.beq m2 = false) := by
  constructor
  · by_cases hsh : m1.rows ≠ m2.rows ∨ m1.cols ≠ m2.cols
    · simp only [Matrix.beq, if_pos hsh]
      constructor
      · intro h
        simp at h
      · rintro ⟨ha, hb, -⟩
        rcases hsh with h | h
        · exact absurd ha h
        · exact absurd hb h
    · have hcond := hsh
      push_neg at hsh
      simp only [Matrix.beq, if_neg hcond]
      constructor
      · intro hall
        refine ⟨hsh.1, hsh.2, ?_⟩
        intro r hr c hc
        have hidx : r * m1.cols + c < m1.data.length := idx_lt h1 hr hc
        have hmem := List.all_eq_true.mp hall (r * m1.cols + c) (List.mem_range.mpr hidx)
        have h' : ¬ EPS <
            |m1.data.getD (r * m1.cols + c) 0 - m2.data.getD (r * m1.cols + c) 0| := by
          simpa using hmem
        unfold Matrix.get
        rw [← hsh.2]
        exact not_lt.mp h'
      · rintro ⟨-, -, hel⟩
        rw [List.all_eq_true]
        intro i hi
        have hi' : i < m1.data.length := List.mem_range.mp hi
        have hc0 : 0 < m1.cols := h1.2.1
        have hcc : i % m1.cols < m1.cols := Nat.mod_lt _ hc0
        have hrr : i / m1.cols < m1.rows := by
          rw [Nat.div_lt_iff_lt_mul hc0]
          calc i < m1.data.length := hi'
            _ = m1.rows * m1.cols := h1.2.2
        have hdecomp : i / m1.cols * m1.cols + i % m1.cols = i := by
          rw [mul_comm]
          exact Nat.div_add_mod i m1.cols
        have hval := hel _ hrr _ hcc
        unfold Matrix.get at hval
        rw [← hsh.2, hdecomp] at hval
        rw [Bool.not_eq_true', decide_eq_false_iff_not]
        exact not_lt.mpr hval
  · intro hsh
    simp only [Matrix.beq, if_pos hsh]

/-- Witness for C6: equality rejects a concrete shape mismatch. -/
theorem c6_equality_witness : Matrix.beq ⟨1, 1, [0]⟩ ⟨2, 1, [0, 0]⟩ = false :=
  (c6_equality ⟨1, 1, [0]⟩ ⟨2, 1, [0, 0]⟩ (by decide) (by decide)).2 (by decide)

/-- C7: the flat-buffer constructor fails with InvalidDimension exactly on
a zero dimension or an empty buffer, otherwise fails with NonRectangular
exactly when rows differs from the floor division of the buffer length by
cols, and otherwise copies exactly the first rows times cols buffer
values in row-major order, the element at (r, c) being the buffer entry
at index r times cols plus c, any surplus values being ignored. -/
theorem c7_flat_constructor (rows cols : ℕ) (values : List ℚ) :
    (mkFlat rows cols values = .error .InvalidDimension ↔
      rows = 0 ∨ cols = 0 ∨ values.length = 0) ∧
    (mkFlat rows cols values = .error .NonRectangular ↔
      ¬(rows = 0 ∨ cols = 0 ∨ values.length = 0) ∧ rows ≠ values.length / cols) ∧
    (∀ m, mkFlat rows cols values = .ok m →
      m.rows = rows ∧ m.cols = cols ∧ m.data = values.take (rows * cols) ∧
      ∀ r, r < rows → ∀ c, c < cols → m.get r c = values.getD (r * cols + c) 0) := by
  by_cases hd : rows = 0 ∨ cols = 0 ∨ values.length = 0
  · have he : mkFlat rows cols values = .error .InvalidDimension := by
      unfold mkFlat
      rw [if_pos hd]
    refine ⟨iff_of_true (by rw [he]) hd,
      iff_of_false (by rw [he]; simp) fun hcon => hcon.1 hd, ?_⟩
    intro m h
    rw [he] at h
    exact absurd h (by simp)
  · by_cases hne : rows = values.length / cols
    · have he : mkFlat rows cols values = .ok ⟨rows, cols, values.take (rows * cols)⟩ := by
        unfold mkFlat
        rw [if_neg hd, if_neg fun hx => hx hne]
      have hle : rows * cols ≤ values.length := by
        rw [hne]
        exact Nat.div_mul_le_self _ _
      refine ⟨iff_of_false (by rw [he]; simp) hd,
        iff_of_false (by rw [he]; simp) fun hcon => hcon.2 hne, ?_⟩
      · intro m h
        rw [he, Except.ok.injEq] at h
        subst h
        refine ⟨rfl, rfl, rfl, ?_⟩
        intro r hr c hc
        have hidx : r * cols + c < rows * cols := by
          calc r * cols + c < r * cols + cols := Nat.add_lt_add_left hc _
            _ = (r + 1) * cols := by ring
            _ ≤ rows * cols := Nat.mul_le_mul_right _ hr
        have hlen1 : r * cols + c < (values.take (rows * cols)).length := by
          rw [List.length_take, Nat.min_eq_left hle]
          exact hidx
        have hlen2 : r * cols + c < values.length := lt_of_lt_of_le hidx hle
        show (values.take (rows * cols)).getD (r * cols + c) 0 = values.getD (r * cols + c) 0
        rw [List.getD_eq_getElem _ _ hlen1, List.getD_eq_getElem _ _ hlen2, List.getElem_take]
    · have he : mkFlat rows cols values = .error .NonRectangular := by
        unfold mkFlat
        rw [if_neg hd, if_pos hne]
      refine ⟨iff_of_false (by rw [he]; simp) hd,
        iff_of_true (by rw [he]) ⟨hd, hne⟩, ?_⟩
      intro m h
      rw [he] at h
      exact absurd h (by simp)

/-- Witness for C7: a concrete successful construction from a buffer with
one surplus value, evaluated at entry (1, 0). -/
theorem c7_flat_constructor_witness :
    Matrix.get ⟨2, 2, [1, 2, 3, 4]⟩ 1 0 = ([1, 2, 3, 4, 5] : List ℚ).getD (1 * 2 + 0) 0 :=
  ((c7_flat_constructor 2 2 [1, 2, 3, 4, 5]).2.2 ⟨2, 2, [1, 2, 3, 4]⟩
    (by decide)).2.2.2 1 (by decide) 0 (by decide)

/-- C8: for equal-shaped valid matrices, adding B and then subtracting B
returns a matrix equal to A under the tolerance equality; on any shape
mismatch both operators fail with DimensionMismatch (the embedded
operators are pure, so the operands are never modified). -/
theorem c8_add_sub (A B : Matrix) (hA : A.WF) (hB : B.WF) :
    (A.rows = B.rows ∧ A.cols = B.cols →
      ∃ C D, A.add B = .ok C ∧ C.sub B = .ok D ∧ D.beq A = true) ∧
    (A.rows ≠ B.rows ∨ A.cols ≠ B.cols →
      A.add B = .error .DimensionMismatch ∧ A.sub B = .error .DimensionMismatch) := by
  constructor
  · rintro ⟨hr, hc⟩
    have hcond : ¬(A.rows ≠ B.rows ∨ A.cols ≠ B.cols) := by
      push_neg
      exact ⟨hr, hc⟩
    have hz : ¬(A.rows = 0 ∨ A.cols = 0) := by
      rcases hA with ⟨u1, u2, -⟩
      omega
    have hC : A.add B = .ok ⟨A.rows, A.cols,
        (List.range A.data.length).map fun i => A.data.getD i 0 + B.data.getD i 0⟩ := by
      unfold Matrix.add
      rw [if_neg hcond, if_neg hz]
    have hD : Matrix.sub ⟨A.rows, A.cols,
          (List.range A.data.length).map fun i => A.data.getD i 0 + B.data.getD i 0⟩ B =
        .ok ⟨A.rows, A.cols, (List.range ((List.range A.data.length).map fun i =>
            A.data.getD i 0 + B.data.getD i 0).length).map fun i =>
          ((List.range A.data.length).map fun i' =>
            A.data.getD i' 0 + B.data.getD i' 0).getD i 0 - B.data.getD i 0⟩ := by
      unfold Matrix.sub
      rw [if_neg hcond, if_neg hz]
    refine ⟨_, _, hC, hD, ?_⟩
    refine beq_of_entries rfl rfl ?_
    intro i hi
    simp only [List.length_map, List.length_range] at hi
    have hi' : i < ((List.range A.data.length).map fun i' =>
        A.data.getD i' 0 + B.data.getD i' 0).length := by
      simp only [List.length_map, List.length_range]
      exact hi
    show |((List.range ((List.range A.data.length).map fun i' =>
        A.data.getD i' 0 + B.data.getD i' 0).length).map fun i' =>
          ((List.range A.data.length).map fun i'' =>
            A.data.getD i'' 0 + B.data.getD i'' 0).getD i' 0 - B.data.getD i' 0).getD i 0 -
        A.data.getD i 0| ≤ EPS
    rw [getD_range_map _ hi', getD_range_map _ hi]
    have hzero : A.data.getD i 0 + B.data.getD i 0 - B.data.getD i 0 - A.data.getD i 0 = 0 := by
      ring
    show |A.data.getD i 0 + B.data.getD i 0 - B.data.getD i 0 - A.data.getD i 0| ≤ EPS
    rw [hzero, abs_zero]
    exact le_of_lt EPS_pos
  · intro hsh
    constructor
    · unfold Matrix.add
      rw [if_pos hsh]
    · unfold Matrix.sub
      rw [if_pos hsh]

/-- Witness for C8 at concrete one by one matrices. -/
theorem c8_add_sub_witness :
    ∃ C D, Matrix.add ⟨1, 1, [1]⟩ ⟨1, 1, [2]⟩ = .ok C ∧
      Matrix.sub C ⟨1, 1, [2]⟩ = .ok D ∧ Matrix.beq D ⟨1, 1, [1]⟩ = true :=
  (c8_add_sub ⟨1, 1, [1]⟩ ⟨1, 1, [2]⟩ (by decide) (by decide)).1 ⟨rfl, rfl⟩

/-- C9: scalar multiplication of a valid matrix never fails, the left and
right forms return the identical matrix, the shape is preserved, and
every entry of the result is the scalar times the corresponding entry of
the operand (the embedded operator is pure, so the operand is never
modified). -/
theorem c9_scalar_mul (A : Matrix) (k : ℚ) (hA : A.WF) :
    ∃ B, mulMatScalar A k = .ok B ∧ mulScalarMat k A = .ok B ∧
      B.rows = A.rows ∧ B.cols = A.cols ∧ B.data.length = A.data.length ∧
      ∀ r, r < A.rows → ∀ c, c < A.cols → B.get r c = k * A.get r c := by
  have hz : ¬(A.rows = 0 ∨ A.cols = 0) := by
    rcases hA with ⟨u1, u2, -⟩
    omega
  refine ⟨⟨A.rows, A.cols, (List.range A.data.length).map fun i => A.data.getD i 0 * k⟩,
    ?_, ?_, rfl, rfl, by simp, ?_⟩
  · unfold mulMatScalar
    rw [if_neg hz]
  · unfold mulScalarMat mulMatScalar
    rw [if_neg hz]
  · intro r hr c hc
    show ((List.range A.data.length).map fun i =>
      A.data.getD i 0 * k).getD (r * A.cols + c) 0 = k * A.data.getD (r * A.cols + c) 0
    rw [getD_range_map _ (idx_lt hA hr hc)]
    exact mul_comm _ k

/-- Witness for C9 at a concrete matrix and a negative scalar. -/
theorem c9_scalar_mul_witness :
    ∃ B, mulMatScalar ⟨2, 2, [1, 2, 3, 4]⟩ (-2) = .ok B ∧
      mulScalarMat (-2) ⟨2, 2, [1, 2, 3, 4]⟩ = .ok B ∧
      B.rows = (⟨2, 2, [1, 2, 3, 4]⟩ : Matrix).rows ∧
      B.cols = (⟨2, 2, [1, 2, 3, 4]⟩ : Matrix).cols ∧
      B.data.length = (⟨2, 2, [1, 2, 3, 4]⟩ : Matrix).data.length ∧
      ∀ r, r < (⟨2, 2, [1, 2, 3, 4]⟩ : Matrix).rows →
        ∀ c, c < (⟨2, 2, [1, 2, 3, 4]⟩ : Matrix).cols →
          B.get r c = -2 * (⟨2, 2, [1, 2, 3, 4]⟩ : Matrix).get r c :=
  c9_scalar_mul ⟨2, 2, [1, 2, 3, 4]⟩ (-2) (by decide)

theorem except_bind_ok {α β : Type} (a : α) (f : α → Except Err β) :
    (Except.ok a >>= f) = f a := rfl

theorem findPivotChecked_ok (m : Matrix) (lead : ℕ) (hlead : lead < m.cols) :
    ∀ fuel i, m.rows - i ≤ fuel →
      findPivotChecked m lead fuel i =
        .ok ((List.range' i (m.rows - i)).find? fun x => !decide (|m.get x lead| < EPS)) := by
  intro fuel
  induction fuel with
  | zero =>
    intro i h
    have h0 : m.rows - i = 0 := by omega
    rw [h0]
    simp [findPivotChecked]
  | succ fuel ih =>
    intro i h
    unfold findPivotChecked
    by_cases hi : i < m.rows
    · rw [if_pos hi]
      have hg : m.getChecked i lead = .ok (m.get i lead) := by
        unfold Matrix.getChecked
        rw [if_neg (by push_neg; exact ⟨hi, hlead⟩)]
      rw [hg, except_bind_ok]
      rw [show m.rows - i = (m.rows - (i + 1)) + 1 from by omega, List.range'_succ]
      by_cases hv : |m.get i lead| < EPS
      · rw [if_pos hv, ih (i + 1) (by omega)]
        simp [List.find?_cons, hv]
      · rw [if_neg hv]
        simp [List.find?_cons, hv]
    · rw [if_neg hi]
      have h0 : m.rows - i = 0 := by omega
      rw [h0]
      simp

theorem elimRowChecked_ok (row lead : ℕ) (acc : Matrix) (j : ℕ)
    (hrow : row < acc.rows) (hlead : lead < acc.cols) (hj : j < acc.rows) :
    elimRowChecked row lead acc j = .ok (elimRow row lead acc j) := by
  unfold elimRowChecked elimRow
  by_cases hne : j ≠ row
  · rw [if_pos hne]
    have hg : acc.getChecked j lead = .ok (acc.get j lead) := by
      unfold Matrix.getChecked
      rw [if_neg (by push_neg; exact ⟨hj, hlead⟩)]
    rw [hg, except_bind_ok]
    by_cases hv : EPS < |acc.get j lead|
    · rw [if_pos hv, if_pos ⟨hne, hv⟩]
      unfold Matrix.add_row_multipleChecked
      rw [if_neg (not_le.mpr hrow), if_neg (not_le.mpr hj)]
    · rw [if_neg hv, if_neg fun hand => hv hand.2]
  · rw [if_neg hne, if_neg fun hand => hne hand.1]

theorem foldlM_elimRow_ok (row lead : ℕ) :
    ∀ (L : List ℕ) (acc : Matrix), row < acc.rows → lead < acc.cols →
      (∀ j ∈ L, j < acc.rows) →
      L.foldlM (elimRowChecked row lead) acc = .ok (L.foldl (elimRow row lead) acc) := by
  intro L
  induction L with
  | nil => intro acc _ _ _; rfl
  | cons j L ih =>
    intro acc hrow hlead hmem
    rw [List.foldlM_cons, elimRowChecked_ok row lead acc j hrow hlead (hmem j (by simp)),
      except_bind_ok, List.foldl_cons]
    exact ih (elimRow row lead acc j) (by simpa using hrow) (by simpa using hlead)
      fun x hx => by simpa using hmem x (by simp [hx])

theorem elimAllChecked_ok (m : Matrix) (row lead : ℕ)
    (hrow : row < m.rows) (hlead : lead < m.cols) :
    elimAllChecked m row lead = .ok (elimAll m row lead) := by
  unfold elimAllChecked elimAll
  exact foldlM_elimRow_ok row lead (List.range m.rows) m hrow hlead
    fun j hj => List.mem_range.mp hj

theorem rrefCheckedAux_ok :
    ∀ fuel (m : Matrix) (row lead : ℕ),
      rrefCheckedAux fuel m row lead = .ok (rrefAux fuel m row lead) := by
  intro fuel
  induction fuel with
  | zero => intro m row lead; rfl
  | succ fuel ih =>
    intro m row lead
    unfold rrefCheckedAux rrefAux
    by_cases h1 : row < m.rows
    · by_cases h2 : lead < m.cols
      · simp only [if_pos h1, if_pos h2]
        rw [findPivotChecked_ok m lead h2 (m.rows - row) row le_rfl, except_bind_ok]
        have hfp_def : ((List.range' row (m.rows - row)).find?
            fun x => !decide (|m.get x lead| < EPS)) = findPivot m row lead := rfl
        rw [hfp_def]
        cases hfp : findPivot m row lead with
        | none => exact ih m row (lead + 1)
        | some i =>
          have hmem := List.mem_range'_1.mp (List.mem_of_find?_eq_some hfp)
          have hi : i < m.rows := by omega
          have hsw : m.swap_rowsChecked i row = .ok (m.swap_rows i row) := by
            unfold Matrix.swap_rowsChecked
            rw [if_neg (by push_neg; exact ⟨hi, h1⟩)]
          have hg : (m.swap_rows i row).getChecked row lead =
              .ok ((m.swap_rows i row).get row lead) := by
            unfold Matrix.getChecked
            rw [if_neg (by push_neg; exact ⟨by simpa using h1, by simpa using h2⟩)]
          dsimp only
          rw [hsw, except_bind_ok, hg, except_bind_ok]
          by_cases hp : EPS < |(m.swap_rows i row).get row lead|
          · rw [if_pos hp]
            have hsc : (m.swap_rows i row).scale_rowChecked row
                (1 / (m.swap_rows i row).get row lead) =
                .ok ((m.swap_rows i row).scale_row row
                  (1 / (m.swap_rows i row).get row lead)) := by
              unfold Matrix.scale_rowChecked
              rw [if_neg (by simpa using not_le.mpr h1)]
            rw [hsc, except_bind_ok,
              elimAllChecked_ok _ row lead (by simpa using h1) (by simpa using h2),
              except_bind_ok,
              show scaleStep (m.swap_rows i row) row lead =
                (m.swap_rows i row).scale_row row (1 / (m.swap_rows i row).get row lead) from by
                  unfold scaleStep
                  rw [if_pos hp]]
            exact ih _ (row + 1) (lead + 1)
          · rw [if_neg hp, except_bind_ok,
              elimAllChecked_ok _ row lead (by simpa using h1) (by simpa using h2),
              except_bind_ok,
              show scaleStep (m.swap_rows i row) row lead = m.swap_rows i row from by
                unfold scaleStep
                rw [if_neg hp]]
            exact ih _ (row + 1) (lead + 1)
      · simp only [if_pos h1, if_neg h2]
    · simp only [if_neg h1]

/-- C10: rref() never raises an error on any valid matrix: running the main
loop with every element access and row operation replaced by its checked
variant (whose error branches model the out-of-range throws) returns ok
with exactly the result of the unchecked loop, so the out-of-range error
branches are unreachable from rref(). -/
theorem c10_rref_never_errors (m : Matrix) (h : m.WF) : m.rrefChecked = .ok m.rref := by
  unfold Matrix.rrefChecked Matrix.rref
  exact rrefCheckedAux_ok (m.rows + m.cols) m 0 0

/-- Witness for C10 at a concrete matrix. -/
theorem c10_rref_never_errors_witness :
    (⟨2, 2, [2, 4, 1, 3]⟩ : Matrix).rrefChecked = .ok (⟨2, 2, [2, 4, 1, 3]⟩ : Matrix).rref :=
  c10_rref_never_errors ⟨2, 2, [2, 4, 1, 3]⟩ (by decide)

theorem rrefAux_succ_none {fuel : ℕ} {m : Matrix} {row lead : ℕ}
    (h1 : row < m.rows) (h2 : lead < m.cols) (hnone : findPivot m row lead = none) :
    rrefAux (fuel + 1) m row lead = rrefAux fuel m row (lead + 1) := by
  conv_lhs => rw [rrefAux]
  simp only [if_pos h1, if_pos h2, hnone]

theorem rrefAux_succ_some {fuel : ℕ} {m : Matrix} {row lead i : ℕ}
    (h1 : row < m.rows) (h2 : lead < m.cols) (hsome : findPivot m row lead = some i) :
    rrefAux (fuel + 1) m row lead =
      rrefAux fuel (elimAll (scaleStep (m.swap_rows i row) row lead) row lead)
        (row + 1) (lead + 1) := by
  conv_lhs => rw [rrefAux]
  simp only [if_pos h1, if_pos h2, hsome]

theorem goodVal_cases {v : ℚ} (h : goodVal v = true) : v = 0 ∨ EPS < |v| := by
  unfold goodVal at h
  simpa using h

theorem goodVal_large {v : ℚ} (h : goodVal v = true) (hv : ¬ |v| < EPS) : EPS < |v| := by
  rcases goodVal_cases h with h0 | hL
  · exfalso
    rw [h0, abs_zero] at hv
    exact hv EPS_pos
  · exact hL

theorem goodVal_small {v : ℚ} (h : goodVal v = true) (hv : ¬ EPS < |v|) : v = 0 := by
  rcases goodVal_cases h with h0 | hL
  · exact h0
  · exact absurd hL hv

theorem cleanAux_split_none {fuel : ℕ} {m : Matrix} {row lead : ℕ}
    (h1 : row < m.rows) (h2 : lead < m.cols) (hnone : findPivot m row lead = none)
    (hcl : cleanAux (fuel + 1) m row lead = true) :
    ((List.range' row (m.rows - row)).all fun i => goodVal (m.get i lead)) = true ∧
    cleanAux fuel m row (lead + 1) = true := by
  unfold cleanAux at hcl
  simp only [if_pos h1, if_pos h2, hnone, Bool.and_eq_true] at hcl
  exact hcl

theorem cleanAux_split_some {fuel : ℕ} {m : Matrix} {row lead i : ℕ}
    (h1 : row < m.rows) (h2 : lead < m.cols) (hsome : findPivot m row lead = some i)
    (hcl : cleanAux (fuel + 1) m row lead = true) :
    ((List.range' row (m.rows - row)).all fun x => goodVal (m.get x lead)) = true ∧
    ((List.range m.rows).all fun j => decide (j = row) ||
      goodVal ((scaleStep (m.swap_rows i row) row lead).get j lead)) = true ∧
    cleanAux fuel (elimAll (scaleStep (m.swap_rows i row) row lead) row lead)
      (row + 1) (lead + 1) = true := by
  unfold cleanAux at hcl
  simp only [if_pos h1, if_pos h2, hsome, Bool.and_eq_true] at hcl
  exact ⟨hcl.1, hcl.2.1, hcl.2.2⟩

theorem swap_rows_self (m : Matrix) (r : ℕ) : m.swap_rows r r = m := by
  refine Matrix.ext rfl rfl ?_
  apply List.ext_getElem (by simp)
  intro i h1 h2
  simp only [Matrix.swap_rows]
  rw [List.getElem_ofFn]
  by_cases hb : r * m.cols ≤ i ∧ i < r * m.cols + m.cols
  · rw [if_pos hb, show r * m.cols + (i - r * m.cols) = i from by omega,
      List.getD_eq_getElem _ _ h2]
  · rw [if_neg hb, if_neg hb, List.getD_eq_getElem _ _ h2]

theorem scale_row_one (m : Matrix) (r : ℕ) : m.scale_row r 1 = m := by
  refine Matrix.ext rfl rfl ?_
  apply List.ext_getElem (by simp)
  intro i h1 h2
  simp only [Matrix.scale_row]
  rw [List.getElem_ofFn]
  by_cases hb : r * m.cols ≤ i ∧ i < r * m.cols + m.cols
  · rw [if_pos hb, mul_one, List.getD_eq_getElem _ _ h2]
  · rw [if_neg hb, List.getD_eq_getElem _ _ h2]

theorem elimRow_pos {row lead : ℕ} {acc : Matrix} {j : ℕ}
    (h : j ≠ row ∧ EPS < |acc.get j lead|) :
    elimRow row lead acc j = acc.add_row_multiple row j (-(acc.get j lead)) := by
  unfold elimRow
  rw [if_pos h]

theorem elimRow_neg {row lead : ℕ} {acc : Matrix} {j : ℕ}
    (h : ¬(j ≠ row ∧ EPS < |acc.get j lead|)) :
    elimRow row lead acc j = acc := by
  unfold elimRow
  rw [if_neg h]

theorem elimAll_id {m : Matrix} {row lead : ℕ}
    (h : ∀ j, j < m.rows → j ≠ row → ¬ EPS < |m.get j lead|) :
    elimAll m row lead = m := by
  unfold elimAll
  have key : ∀ L : List ℕ, (∀ j ∈ L, j < m.rows) → L.foldl (elimRow row lead) m = m := by
    intro L
    induction L with
    | nil => intro _; rfl
    | cons j L ih =>
      intro hmem
      rw [List.foldl_cons]
      have her : elimRow row lead m j = m := by
        unfold elimRow
        by_cases hj : j ≠ row
        · rw [if_neg fun hand => h j (hmem j (by simp)) hj hand.2]
        · rw [if_neg fun hand => hj hand.1]
      rw [her]
      exact ih fun x hx => hmem x (by simp [hx])
  exact key _ fun j hj => List.mem_range.mp hj

theorem foldl_elimRow_wf {m : Matrix} (hwf : m.WF) (row lead : ℕ) (L : List ℕ) :
    (L.foldl (elimRow row lead) m).WF := by
  obtain ⟨w1, w2, w3⟩ := hwf
  refine ⟨?_, ?_, ?_⟩
  · rw [foldl_elimRow_rows]
    exact w1
  · rw [foldl_elimRow_cols]
    exact w2
  · rw [foldl_elimRow_length, foldl_elimRow_rows, foldl_elimRow_cols]
    exact w3

theorem foldl_elimRow_upto (row lead : ℕ) {m : Matrix} (hwf : m.WF)
    (hrow : row < m.rows) (hlead : lead < m.cols) :
    ∀ k, k ≤ m.rows → ∀ j, j < m.rows → ∀ c, c < m.cols →
      ((List.range k).foldl (elimRow row lead) m).get j c =
        if j < k ∧ j ≠ row ∧ EPS < |m.get j lead| then
          m.get j c - m.get j lead * m.get row c
        else m.get j c := by
  intro k
  induction k with
  | zero =>
    intro hk j hj c hc
    rw [List.range_zero, List.foldl_nil, if_neg fun hand => Nat.not_lt_zero j hand.1]
  | succ k ih =>
    intro hk j hj c hc
    rw [List.range_succ, List.foldl_append, List.foldl_cons, List.foldl_nil]
    have hMwf : ((List.range k).foldl (elimRow row lead) m).WF :=
      foldl_elimRow_wf hwf row lead _
    have hget_k_lead : ((List.range k).foldl (elimRow row lead) m).get k lead = m.get k lead := by
      rw [ih (by omega) k (by omega) lead hlead, if_neg fun hand => lt_irrefl k hand.1]
    have hget_row : ((List.range k).foldl (elimRow row lead) m).get row c = m.get row c := by
      rw [ih (by omega) row hrow c hc, if_neg fun hand => hand.2.1 rfl]
    by_cases hcond : k ≠ row ∧ EPS < |m.get k lead|
    · rw [elimRow_pos ⟨hcond.1, by rw [hget_k_lead]; exact hcond.2⟩, hget_k_lead]
      rw [get_add_row_multiple hMwf (-(m.get k lead)) (by simpa [foldl_elimRow_rows] using hj)
        (by simpa [foldl_elimRow_cols] using hc)]
      by_cases hjk : j = k
      · subst hjk
        rw [if_pos rfl, hget_row,
          ih (by omega) j (by omega) c hc, if_neg fun hand => lt_irrefl j hand.1,
          if_pos ⟨by omega, hcond⟩]
        ring
      · rw [if_neg hjk, ih (by omega) j hj c hc]
        by_cases hjcond : j < k ∧ j ≠ row ∧ EPS < |m.get j lead|
        · rw [if_pos hjcond, if_pos ⟨by omega, hjcond.2⟩]
        · rw [if_neg hjcond, if_neg fun hand => hjcond ⟨by omega, hand.2⟩]
    · rw [elimRow_neg fun hand => hcond ⟨hand.1, by rw [hget_k_lead] at hand; exact hand.2⟩,
        ih (by omega) j hj c hc]
      by_cases hjk : j = k
      · subst hjk
        rw [if_neg fun hand => lt_irrefl j hand.1, if_neg fun hand => hcond hand.2]
      · by_cases hjcond : j < k ∧ j ≠ row ∧ EPS < |m.get j lead|
        · rw [if_pos hjcond, if_pos ⟨by omega, hjcond.2⟩]
        · rw [if_neg hjcond, if_neg fun hand => hjcond ⟨by omega, hand.2⟩]

theorem elimAll_wf {m : Matrix} (hwf : m.WF) (row lead : ℕ) : (elimAll m row lead).WF :=
  foldl_elimRow_wf hwf row lead _

theorem get_elimAll {m : Matrix} (hwf : m.WF) {row lead : ℕ}
    (hrow : row < m.rows) (hlead : lead < m.cols) {j c : ℕ}
    (hj : j < m.rows) (hc : c < m.cols) :
    (elimAll m row lead).get j c =
      if j ≠ row ∧ EPS < |m.get j lead| then
        m.get j c - m.get j lead * m.get row c
      else m.get j c := by
  unfold elimAll
  rw [foldl_elimRow_upto row lead hwf hrow hlead m.rows le_rfl j hj c hc]
  by_cases h : j ≠ row ∧ EPS < |m.get j lead|
  · rw [if_pos ⟨hj, h⟩, if_pos h]
  · rw [if_neg fun hand => h hand.2, if_neg h]

theorem inv_mono_lt {m : Matrix} {row lead : ℕ} {pv : ℕ → ℕ} (hinv : Inv m row lead pv) :
    ∀ r s, r < s → s < row → pv r < pv s := by
  intro r s
  induction s with
  | zero => intro h _; omega
  | succ s ih =>
    intro hrs hs
    rcases Nat.lt_succ_iff_lt_or_eq.mp hrs with h | h
    · exact lt_trans (ih h (by omega)) (hinv.mono s hs)
    · subst h
      exact hinv.mono r hs

theorem inv_tail_zero {B : Matrix} {row' lead' : ℕ} {pv' : ℕ → ℕ}
    (hinv : Inv B row' lead' pv') (hexit : row' = B.rows ∨ lead' = B.cols) :
    ∀ j, row' ≤ j → j < B.rows → ∀ c, c < B.cols → B.get j c = 0 := by
  intro j hj1 hj2 c hc
  rcases hexit with he | he
  · omega
  · exact hinv.block j hj1 hj2 c (by omega)

theorem wf_of_shape {m m' : Matrix} (hwf : m.WF) (hr : m'.rows = m.rows)
    (hc : m'.cols = m.cols) (hl : m'.data.length = m.data.length) : m'.WF := by
  obtain ⟨w1, w2, w3⟩ := hwf
  exact ⟨by omega, by omega, by rw [hl, hr, hc]; exact w3⟩

theorem skipStep_inv {m : Matrix} {row lead : ℕ} {pv : ℕ → ℕ}
    (hinv : Inv m row lead pv) (hrow : row < m.rows) (hlead : lead < m.cols)
    (hnone : findPivot m row lead = none)
    (hgood_scan : ∀ x, row ≤ x → x < m.rows → goodVal (m.get x lead) = true) :
    Inv m row (lead + 1) pv := by
  have hzero : ∀ x, row ≤ x → x < m.rows → m.get x lead = 0 := by
    intro x hx1 hx2
    have hnf := List.find?_eq_none.mp
      (show (List.range' row (m.rows - row)).find?
        (fun y => !decide (|m.get y lead| < EPS)) = none from hnone) x
      (List.mem_range'_1.mpr ⟨hx1, by omega⟩)
    have hlt : |m.get x lead| < EPS := by
      by_contra hcon
      exact hnf (by simp [hcon])
    exact goodVal_small (hgood_scan x hx1 hx2) (not_lt.mpr hlt.le)
  refine ⟨hinv.mono, ?_, hinv.pivot_one, hinv.pivot_col, hinv.preZero, ?_⟩
  · intro r hr
    have := hinv.lt_lead r hr
    omega
  · intro r hr1 hr2 c hcl
    by_cases hc2 : c < lead
    · exact hinv.block r hr1 hr2 c hc2
    · have hce : c = lead := by omega
      subst hce
      exact hzero r hr1 hr2

theorem pivotStep_inv {m : Matrix} (hwf : m.WF) {row lead i : ℕ} {pv : ℕ → ℕ}
    (hinv : Inv m row lead pv) (hrow : row < m.rows) (hlead : lead < m.cols)
    (hi_lo : row ≤ i) (hi : i < m.rows)
    (hpiv : ¬ |m.get i lead| < EPS)
    (hgood_scan : ∀ x, row ≤ x → x < m.rows → goodVal (m.get x lead) = true)
    (hgood_elim : ∀ j, j < m.rows → j ≠ row →
      goodVal ((scaleStep (m.swap_rows i row) row lead).get j lead) = true) :
    Inv (elimAll (scaleStep (m.swap_rows i row) row lead) row lead) (row + 1) (lead + 1)
      (fun r => if r = row then lead else pv r) := by
  have hm1wf : (m.swap_rows i row).WF := wf_of_shape hwf (by simp) (by simp) (by simp)
  have hm1get : ∀ r c, r < m.rows → c < m.cols → (m.swap_rows i row).get r c =
      if r = i then m.get row c else if r = row then m.get i c else m.get r c := by
    intro r c hr hc
    exact get_swap_rows hwf hr hc
  have hpivot_val : (m.swap_rows i row).get row lead = m.get i lead := by
    rw [hm1get row lead hrow hlead]
    by_cases hri : row = i
    · rw [if_pos hri, hri]
    · rw [if_neg hri, if_pos rfl]
  have hpivot_lg : EPS < |m.get i lead| := goodVal_large (hgood_scan i hi_lo hi) hpiv
  have hpivot_nz : m.get i lead ≠ 0 := by
    intro h0
    rw [h0, abs_zero] at hpivot_lg
    exact absurd hpivot_lg (not_lt.mpr EPS_pos.le)
  have hm2eq : scaleStep (m.swap_rows i row) row lead =
      (m.swap_rows i row).scale_row row (1 / m.get i lead) := by
    unfold scaleStep
    rw [hpivot_val, if_pos hpivot_lg]
  have hm2wf : (scaleStep (m.swap_rows i row) row lead).WF :=
    wf_of_shape hwf (by simp) (by simp) (by simp)
  have hm2get : ∀ r c, r < m.rows → c < m.cols →
      (scaleStep (m.swap_rows i row) row lead).get r c =
        if r = row then (m.swap_rows i row).get r c * (1 / m.get i lead)
        else (m.swap_rows i row).get r c := by
    intro r c hr hc
    rw [hm2eq]
    exact get_scale_row hm1wf _ (by simpa using hr) (by simpa using hc)
  have hm2_pivot : (scaleStep (m.swap_rows i row) row lead).get row lead = 1 := by
    rw [hm2get row lead hrow hlead, if_pos rfl, hpivot_val]
    exact mul_one_div_cancel hpivot_nz
  have hm2_finished : ∀ r c, r < row → c < m.cols →
      (scaleStep (m.swap_rows i row) row lead).get r c = m.get r c := by
    intro r c hr hc
    rw [hm2get r c (by omega) hc, if_neg (by omega), hm1get r c (by omega) hc,
      if_neg (by omega), if_neg (by omega)]
  have hm2_block : ∀ r c, row ≤ r → r < m.rows → c < lead →
      (scaleStep (m.swap_rows i row) row lead).get r c = 0 := by
    intro r c hr1 hr2 hcl
    have hcc : c < m.cols := by omega
    rw [hm2get r c hr2 hcc]
    by_cases hrr : r = row
    · subst hrr
      rw [if_pos rfl, hm1get r c hr2 hcc]
      by_cases hri : r = i
      · rw [if_pos hri, hinv.block r le_rfl hrow c hcl, zero_mul]
      · rw [if_neg hri, if_pos rfl, hinv.block i hi_lo hi c hcl, zero_mul]
    · rw [if_neg hrr, hm1get r c hr2 hcc]
      by_cases hri2 : r = i
      · rw [if_pos hri2]
        exact hinv.block row le_rfl hrow c hcl
      · rw [if_neg hri2, if_neg hrr]
        exact hinv.block r hr1 hr2 c hcl
  have hm2_pivot_one_old : ∀ r, r < row →
      (scaleStep (m.swap_rows i row) row lead).get r (pv r) = 1 := by
    intro r hr
    rw [hm2_finished r (pv r) hr (by have := hinv.lt_lead r hr; omega)]
    exact hinv.pivot_one r hr
  have hm2_pivot_col_old : ∀ r, r < row → ∀ j, j < m.rows → j ≠ r →
      (scaleStep (m.swap_rows i row) row lead).get j (pv r) = 0 := by
    intro r hr j hj hjr
    have hpvc : pv r < m.cols := by have := hinv.lt_lead r hr; omega
    by_cases hjrow : j = row
    · subst hjrow
      exact hm2_block j (pv r) le_rfl hrow (hinv.lt_lead r hr)
    · rw [hm2get j (pv r) hj hpvc, if_neg hjrow, hm1get j (pv r) hj hpvc]
      by_cases hji : j = i
      · rw [if_pos hji]
        exact hinv.pivot_col r hr row hrow (by omega)
      · rw [if_neg hji, if_neg hjrow]
        exact hinv.pivot_col r hr j hj hjr
  have hm2_prefix_old : ∀ r, r < row → ∀ c, c < pv r →
      (scaleStep (m.swap_rows i row) row lead).get r c = 0 := by
    intro r hr c hcp
    have hcc : c < m.cols := by have := hinv.lt_lead r hr; omega
    rw [hm2_finished r c hr hcc]
    exact hinv.preZero r hr c hcp
  have hm3row : ∀ c, c < m.cols →
      (elimAll (scaleStep (m.swap_rows i row) row lead) row lead).get row c =
        (scaleStep (m.swap_rows i row) row lead).get row c := by
    intro c hc
    rw [get_elimAll hm2wf (by simpa using hrow) (by simpa using hlead)
      (by simpa using hrow) (by simpa using hc)]
    rw [if_neg fun hand => hand.1 rfl]
  have hm3elim : ∀ j, j < m.rows → j ≠ row → ∀ c, c < m.cols →
      (elimAll (scaleStep (m.swap_rows i row) row lead) row lead).get j c =
        (scaleStep (m.swap_rows i row) row lead).get j c -
          (scaleStep (m.swap_rows i row) row lead).get j lead *
            (scaleStep (m.swap_rows i row) row lead).get row c := by
    intro j hj hjne c hc
    rw [get_elimAll hm2wf (by simpa using hrow) (by simpa using hlead)
      (by simpa using hj) (by simpa using hc)]
    by_cases hfa : EPS < |(scaleStep (m.swap_rows i row) row lead).get j lead|
    · rw [if_pos ⟨hjne, hfa⟩]
    · rw [if_neg fun hand => hfa hand.2,
        goodVal_small (hgood_elim j hj hjne) hfa, zero_mul, sub_zero]
  refine ⟨?_, ?_, ?_, ?_, ?_, ?_⟩
  · intro r hr
    by_cases hone : r + 1 = row
    · rw [if_neg (by omega), if_pos hone]
      exact hinv.lt_lead r (by omega)
    · rw [if_neg (by omega), if_neg hone]
      exact hinv.mono r (by omega)
  · intro r hr
    by_cases hone : r = row
    · rw [if_pos hone]
      omega
    · rw [if_neg hone]
      have := hinv.lt_lead r (by omega)
      omega
  · intro r hr
    by_cases hone : r = row
    · subst hone
      rw [if_pos rfl, hm3row lead hlead]
      exact hm2_pivot
    · rw [if_neg hone]
      have hr' : r < row := by omega
      have hpvc : pv r < m.cols := by have := hinv.lt_lead r hr'; omega
      rw [hm3elim r (by omega) hone (pv r) hpvc, hm2_pivot_one_old r hr',
        hm2_block row (pv r) le_rfl hrow (hinv.lt_lead r hr'), mul_zero, sub_zero]
  · intro r hr j hj hjr
    have hjm : j < m.rows := by simpa using hj
    by_cases hone : r = row
    · subst hone
      rw [if_pos rfl]
      rw [hm3elim j hjm hjr lead hlead, hm2_pivot, mul_one, sub_self]
    · rw [if_neg hone]
      have hr' : r < row := by omega
      have hpvc : pv r < m.cols := by have := hinv.lt_lead r hr'; omega
      by_cases hjrow : j = row
      · subst hjrow
        rw [hm3row (pv r) hpvc]
        exact hm2_block j (pv r) le_rfl hrow (hinv.lt_lead r hr')
      · rw [hm3elim j hjm hjrow (pv r) hpvc, hm2_pivot_col_old r hr' j hjm hjr,
          hm2_block row (pv r) le_rfl hrow (hinv.lt_lead r hr'), mul_zero, zero_sub, neg_zero]
  · intro r hr c hcp
    by_cases hone : r = row
    · subst hone
      rw [if_pos rfl] at hcp
      rw [hm3row c (by omega)]
      exact hm2_block r c le_rfl hrow hcp
    · rw [if_neg hone] at hcp
      have hr' : r < row := by omega
      have hcc : c < m.cols := by have := hinv.lt_lead r hr'; omega
      rw [hm3elim r (by omega) hone c hcc, hm2_prefix_old r hr' c hcp,
        hm2_block row c le_rfl hrow (by have := hinv.lt_lead r hr'; omega),
        mul_zero, zero_sub, neg_zero]
  · intro r hr1 hr2 c hcl
    have hrm : r < m.rows := by simpa using hr2
    have hrne : r ≠ row := by omega
    have hcc : c < m.cols := by omega
    rw [hm3elim r hrm hrne c hcc]
    by_cases hcl2 : c < lead
    · rw [hm2_block r c (by omega) hrm hcl2,
        hm2_block row c le_rfl hrow hcl2, mul_zero, sub_zero]
    · have hceq : c = lead := by omega
      subst hceq
      rw [hm2_pivot, mul_one, sub_self]

theorem rrefAux_inv :
    ∀ fuel (m : Matrix) (row lead : ℕ) (pv : ℕ → ℕ),
      (m.rows - row) + (m.cols - lead) ≤ fuel →
      m.WF → row ≤ m.rows → lead ≤ m.cols →
      cleanAux fuel m row lead = true →
      Inv m row lead pv →
      ∃ row' lead' pv',
        row' ≤ m.rows ∧ lead' ≤ m.cols ∧
        (row' = m.rows ∨ lead' = m.cols) ∧
        Inv (rrefAux fuel m row lead) row' lead' pv' := by
  intro fuel
  induction fuel with
  | zero =>
    intro m row lead pv hf hwf hrow hlead hcl hinv
    have hre : row = m.rows := by omega
    exact ⟨row, lead, pv, by omega, hlead, Or.inl hre, hinv⟩
  | succ fuel ih =>
    intro m row lead pv hf hwf hrow hlead hcl hinv
    by_cases h1 : row < m.rows
    · by_cases h2 : lead < m.cols
      · cases hfp : findPivot m row lead with
        | none =>
          obtain ⟨hscan, hclnext⟩ := cleanAux_split_none h1 h2 hfp hcl
          have hgood_scan : ∀ x, row ≤ x → x < m.rows → goodVal (m.get x lead) = true := by
            intro x hx1 hx2
            exact List.all_eq_true.mp hscan x (List.mem_range'_1.mpr ⟨hx1, by omega⟩)
          have hinv' := skipStep_inv hinv h1 h2 hfp hgood_scan
          rw [rrefAux_succ_none h1 h2 hfp]
          exact ih m row (lead + 1) pv (by omega) hwf hrow (by omega) hclnext hinv'
        | some i =>
          obtain ⟨hscan, helim, hclnext⟩ := cleanAux_split_some h1 h2 hfp hcl
          have hgood_scan : ∀ x, row ≤ x → x < m.rows → goodVal (m.get x lead) = true := by
            intro x hx1 hx2
            exact List.all_eq_true.mp hscan x (List.mem_range'_1.mpr ⟨hx1, by omega⟩)
          have hgood_elim : ∀ j, j < m.rows → j ≠ row →
              goodVal ((scaleStep (m.swap_rows i row) row lead).get j lead) = true := by
            intro j hj hjne
            have hj' := List.all_eq_true.mp helim j (List.mem_range.mpr hj)
            simpa [hjne] using hj'
          have hpiv : ¬ |m.get i lead| < EPS := by
            have hp := List.find?_some (show (List.range' row (m.rows - row)).find?
              (fun x => !decide (|m.get x lead| < EPS)) = some i from hfp)
            simpa using hp
          have hmem := List.mem_range'_1.mp (List.mem_of_find?_eq_some
            (show (List.range' row (m.rows - row)).find?
              (fun x => !decide (|m.get x lead| < EPS)) = some i from hfp))
          have hinv' := pivotStep_inv hwf hinv h1 h2 hmem.1 (by omega) hpiv
            hgood_scan hgood_elim
          have hwf' : (elimAll (scaleStep (m.swap_rows i row) row lead) row lead).WF :=
            wf_of_shape hwf (by simp) (by simp) (by simp)
          rw [rrefAux_succ_some h1 h2 hfp]
          obtain ⟨row', lead', pv', ha, hb, hex, hinvout⟩ :=
            ih (elimAll (scaleStep (m.swap_rows i row) row lead) row lead) (row + 1) (lead + 1)
              (fun r => if r = row then lead else pv r)
              (by simp only [rows_elimAll, cols_elimAll, rows_scaleStep, cols_scaleStep,
                  rows_swap_rows, cols_swap_rows]; omega)
              hwf'
              (by simp only [rows_elimAll, rows_scaleStep, rows_swap_rows]; omega)
              (by simp only [cols_elimAll, cols_scaleStep, cols_swap_rows]; omega)
              hclnext hinv'
          exact ⟨row', lead', pv', by simpa using ha, by simpa using hb,
            by simpa using hex, hinvout⟩
      · refine ⟨row, lead, pv, by omega, by omega, Or.inr (by omega), ?_⟩
        rw [rrefAux_exit_lead _ _ _ _ (not_lt.mp h2)]
        exact hinv
    · refine ⟨row, lead, pv, by omega, by omega, Or.inl (by omega), ?_⟩
      rw [rrefAux_exit_row _ _ _ _ (not_lt.mp h1)]
      exact hinv

theorem isRREFAux_zero_tail (B : Matrix) :
    ∀ fuel (r : ℕ) (last : ℤ) (b : Bool),
      (∀ j, r ≤ j → j < B.rows → ∀ c, c < B.cols → B.get j c = 0) →
      isRREFAux B fuel last b r = true := by
  intro fuel
  induction fuel with
  | zero => intro r last b _; rfl
  | succ fuel ih =>
    intro r last b hz
    unfold isRREFAux
    by_cases hr : r < B.rows
    · rw [if_pos hr]
      have hrp : rowPivot B r = none := by
        unfold rowPivot
        apply List.find?_eq_none.mpr
        intro c hc
        rw [hz r le_rfl hr c (List.mem_range.mp hc)]
        simp only [abs_zero, decide_eq_true_eq]
        exact not_lt.mpr EPS_pos.le
      rw [hrp]
      exact ih (r + 1) last true fun j hj => hz j (by omega)
    · rw [if_neg hr]

theorem isRREFAux_phase1 (B : Matrix) (row' lead' : ℕ) (pv' : ℕ → ℕ)
    (hinv : Inv B row' lead' pv') (hlead' : lead' ≤ B.cols) (hrow' : row' ≤ B.rows)
    (hzero : ∀ j, row' ≤ j → j < B.rows → ∀ c, c < B.cols → B.get j c = 0) :
    ∀ fuel (r : ℕ) (last : ℤ), B.rows - r ≤ fuel → r ≤ row' →
      (∀ s, r ≤ s → s < row' → last < (pv' s : ℤ)) →
      isRREFAux B fuel last false r = true := by
  intro fuel
  induction fuel with
  | zero => intro r last _ _ _; rfl
  | succ fuel ih =>
    intro r last hf hr hlast
    by_cases hcase : r < row'
    · have hrB : r < B.rows := by omega
      have hpvlt : pv' r < lead' := hinv.lt_lead r hcase
      have hpvc : pv' r < B.cols := by omega
      have hrp : rowPivot B r = some (pv' r) := by
        unfold rowPivot
        rw [List.range_eq_range']
        apply find?_range'_some (by omega) (by omega)
        · rw [hinv.pivot_one r hcase]
          simp only [abs_one, decide_eq_true_eq]
          exact EPS_lt_one
        · intro k _ hkpv
          rw [hinv.preZero r hcase k hkpv]
          simp only [abs_zero, decide_eq_false_iff_not]
          exact not_lt.mpr EPS_pos.le
      unfold isRREFAux
      rw [if_pos hrB, hrp]
      dsimp only
      rw [hinv.pivot_one r hcase]
      rw [if_neg (show ¬ EPS < |(1 : ℚ) - 1| from by
        rw [sub_self, abs_zero]; exact not_lt.mpr EPS_pos.le)]
      rw [if_neg (not_le.mpr (hlast r le_rfl hcase))]
      have hall : ((List.range B.rows).all fun rr =>
          decide (rr = r) || !decide (EPS < |B.get rr (pv' r)|)) = true := by
        rw [List.all_eq_true]
        intro rr hrr
        by_cases hrr_eq : rr = r
        · simp [hrr_eq]
        · rw [hinv.pivot_col r hcase rr (List.mem_range.mp hrr) hrr_eq]
          simp [hrr_eq, abs_zero, not_lt.mpr EPS_pos.le]
      rw [hall]
      rw [if_neg (by simp)]
      exact ih (r + 1) (pv' r) (by omega) (by omega) fun s hs1 hs2 => by
        exact_mod_cast inv_mono_lt hinv r s (by omega) hs2
    · have hreq : r = row' := by omega
      subst hreq
      exact isRREFAux_zero_tail B (fuel + 1) r last false hzero

theorem isRREF_of_inv (B : Matrix) (row' lead' : ℕ) (pv' : ℕ → ℕ)
    (hinv : Inv B row' lead' pv') (hrow' : row' ≤ B.rows) (hlead' : lead' ≤ B.cols)
    (hexit : row' = B.rows ∨ lead' = B.cols) :
    isRREF B = true := by
  unfold isRREF
  exact isRREFAux_phase1 B row' lead' pv' hinv hlead' hrow' (inv_tail_zero hinv hexit)
    B.rows 0 (-1) (by omega) (by omega) fun s _ _ => by
      have hn : (0 : ℤ) ≤ (pv' s : ℤ) := Int.natCast_nonneg _
      omega

theorem inv_init (m : Matrix) : Inv m 0 0 fun r => r :=
  ⟨fun r hr => absurd hr (by omega), fun r hr => absurd hr (by omega),
    fun r hr => absurd hr (by omega), fun r hr => absurd hr (by omega),
    fun r hr => absurd hr (by omega), fun r _ _ c hc => absurd hc (by omega)⟩

theorem rref_wf {m : Matrix} (hwf : m.WF) : m.rref.WF :=
  wf_of_shape hwf (by simp [Matrix.rref]) (by simp [Matrix.rref]) (by simp [Matrix.rref])

/-- C1 counterexample: the valid 2 by 3 matrix with rows (1, 1, 1) and
(1, 1 + EPS/2, 1 + 2 EPS) is reduced by rref() to rows (1, 3/4, 0) and
(0, 1/4, 1): elimination creates the sub-tolerance value EPS/2 at (1,1),
the pivot search then skips column 1, and normalizing the pivot 2 EPS at
(1,2) amplifies the skipped entry to 1/4, so the second row's first
above-tolerance entry is 1/4 rather than 1 and the structural RREF
predicate of the test suite fails on the result. -/
theorem c1_counterexample :
    Matrix.WF ⟨2, 3, [1, 1, 1, 1, 1 + EPS / 2, 1 + 2 * EPS]⟩ ∧
      isRREF (Matrix.rref ⟨2, 3, [1, 1, 1, 1, 1 + EPS / 2, 1 + 2 * EPS]⟩) = false := by
  decide

/-- C1 (amended): for every valid matrix whose rref() run is clean — every
value the algorithm compares against EPS along the exact execution path is
either exactly 0 or of absolute value strictly above EPS — the result of
rref() satisfies the structural RREF predicate with zero-tests at
tolerance EPS: every row not entirely within EPS of zero has its first
entry of absolute value above EPS within EPS of 1, the columns of these
leading entries strictly increase with row index, every other entry in
such a column is within EPS of zero, and the all-zero rows form a
contiguous block at the bottom. -/
theorem c1_rref_structural (m : Matrix) (hwf : m.WF) (hclean : m.cleanRun = true) :
    isRREF m.rref = true := by
  obtain ⟨row', lead', pv', h2, h4, hexit, hinvB⟩ :=
    rrefAux_inv (m.rows + m.cols) m 0 0 (fun r => r) (by omega) hwf (by omega) (by omega)
      hclean (inv_init m)
  exact isRREF_of_inv m.rref row' lead' pv' hinvB (by simpa [Matrix.rref] using h2)
    (by simpa [Matrix.rref] using h4) (by simpa [Matrix.rref] using hexit)

/-- Witness for C1 on a concrete clean run. -/
theorem c1_rref_structural_witness :
    isRREF (⟨2, 2, [2, 4, 1, 3]⟩ : Matrix).rref = true :=
  c1_rref_structural ⟨2, 2, [2, 4, 1, 3]⟩ (by decide) (by decide)

theorem rrefAux_fix (B : Matrix) (row' lead' : ℕ) (pv' : ℕ → ℕ)
    (hinv : Inv B row' lead' pv') (hrow' : row' ≤ B.rows) (hlead' : lead' ≤ B.cols)
    (hexit : row' = B.rows ∨ lead' = B.cols) :
    ∀ fuel (r lead : ℕ), (B.rows - r) + (B.cols - lead) ≤ fuel →
      r ≤ row' → lead ≤ B.cols → (r < row' → lead ≤ pv' r) →
      rrefAux fuel B r lead = B := by
  intro fuel
  induction fuel with
  | zero => intro r lead _ _ _ _; rfl
  | succ fuel ih =>
    intro r lead hf hr hl hpv
    by_cases h1 : r < B.rows
    · by_cases h2 : lead < B.cols
      · by_cases hcase : r < row'
        · have hplt : pv' r < lead' := hinv.lt_lead r hcase
          rcases eq_or_lt_of_le (hpv hcase) with heq | hlt
          · subst heq
            have hfp : findPivot B r (pv' r) = some r := by
              unfold findPivot
              apply find?_range'_some le_rfl (by omega)
              · rw [hinv.pivot_one r hcase]
                simp only [abs_one, Bool.not_eq_true', decide_eq_false_iff_not, not_lt]
                exact EPS_lt_one.le
              · intro k hk1 hk2
                exact absurd hk2 (by omega)
            rw [rrefAux_succ_some h1 h2 hfp, swap_rows_self]
            have hsc : scaleStep B r (pv' r) = B := by
              unfold scaleStep
              rw [hinv.pivot_one r hcase, if_pos (by rw [abs_one]; exact EPS_lt_one),
                show (1 : ℚ) / 1 = 1 from by norm_num, scale_row_one]
            rw [hsc]
            rw [elimAll_id fun j hj hjne => by
              rw [hinv.pivot_col r hcase j hj hjne, abs_zero]
              exact not_lt.mpr EPS_pos.le]
            exact ih (r + 1) (pv' r + 1) (by omega) (by omega) (by omega) fun hc => by
              have hmono := hinv.mono r hc
              omega
          · have hfp : findPivot B r lead = none := by
              unfold findPivot
              apply find?_range'_none
              intro k hk1 hk2
              have hkB : k < B.rows := by omega
              have hzk : B.get k lead = 0 := by
                by_cases hkr : k < row'
                · have hpk : lead < pv' k := by
                    rcases eq_or_lt_of_le hk1 with hrk | hrk
                    · rw [← hrk]
                      exact hlt
                    · exact lt_trans hlt (inv_mono_lt hinv r k hrk hkr)
                  exact hinv.preZero k hkr lead hpk
                · exact inv_tail_zero hinv hexit k (by omega) hkB lead h2
              rw [hzk]
              simp [EPS_pos]
            rw [rrefAux_succ_none h1 h2 hfp]
            exact ih r (lead + 1) (by omega) hr (by omega) fun hc => by omega
        · have hreq : r = row' := by omega
          subst hreq
          have hfp : findPivot B r lead = none := by
            unfold findPivot
            apply find?_range'_none
            intro k hk1 hk2
            rw [inv_tail_zero hinv hexit k hk1 (by omega) lead h2]
            simp [EPS_pos]
          rw [rrefAux_succ_none h1 h2 hfp]
          exact ih r (lead + 1) (by omega) hr (by omega) fun hc => absurd hc (lt_irrefl r)
      · exact rrefAux_exit_lead _ _ _ _ (not_lt.mp h2)
    · exact rrefAux_exit_row _ _ _ _ (not_lt.mp h1)

/-- C2 counterexample: on the same valid matrix as the C1 counterexample,
rref() produces rows (1, 3/4, 0), (0, 1/4, 1); running rref() again finds
the pivot 1/4 in column 1 (it is above EPS) and reduces further to rows
(1, 0, -3), (0, 1, 4), which differs from the first result by far more
than EPS, so rref() is not idempotent under the tolerance equality. -/
theorem c2_counterexample :
    Matrix.WF ⟨2, 3, [1, 1, 1, 1, 1 + EPS / 2, 1 + 2 * EPS]⟩ ∧
      ((Matrix.rref ⟨2, 3, [1, 1, 1, 1, 1 + EPS / 2, 1 + 2 * EPS]⟩).rref).beq
        (Matrix.rref ⟨2, 3, [1, 1, 1, 1, 1 + EPS / 2, 1 + 2 * EPS]⟩) = false := by
  decide

/-- C2 (amended): for every valid matrix whose rref() run is clean — every
value the algorithm compares against EPS along the exact execution path is
either exactly 0 or of absolute value strictly above EPS — applying
rref() twice yields a matrix equal to the single application under the
tolerance-based equality operator (in fact the second run returns its
input unchanged). -/
theorem c2_rref_idempotent (m : Matrix) (hwf : m.WF) (hclean : m.cleanRun = true) :
    (m.rref.rref).beq m.rref = true := by
  obtain ⟨row', lead', pv', h2, h4, hexit, hinvB⟩ :=
    rrefAux_inv (m.rows + m.cols) m 0 0 (fun r => r) (by omega) hwf (by omega) (by omega)
      hclean (inv_init m)
  have hfix : m.rref.rref = m.rref :=
    rrefAux_fix m.rref row' lead' pv' hinvB (by simpa [Matrix.rref] using h2)
      (by simpa [Matrix.rref] using h4) (by simpa [Matrix.rref] using hexit)
      (m.rref.rows + m.rref.cols) 0 0 (by omega) (by omega) (by omega) fun _ => by omega
  rw [hfix]
  exact beq_of_entries rfl rfl fun i hi => by
    rw [sub_self, abs_zero]
    exact EPS_pos.le

/-- Witness for C2 on a concrete clean run. -/
theorem c2_rref_idempotent_witness :
    ((⟨2, 2, [2, 4, 1, 3]⟩ : Matrix).rref.rref).beq (⟨2, 2, [2, 4, 1, 3]⟩ : Matrix).rref
      = true :=
  c2_rref_idempotent ⟨2, 2, [2, 4, 1, 3]⟩ (by decide) (by decide)

end Mtx
